import Mathlib

/-!
Verification development for the Nextcloud mirroring downloader
(`nextcloud_dl.py`): a shallow embedding of its filter engine, directory
walker, download worker and orchestrator, together with theorems about
the behaviours the design document ascribes to them.

Modelling conventions:
* remote and local paths are lists of path segments (`PurePosixPath` /
  `Path` components);
* the local filesystem is the list of paths that exist on disk;
* the cooperative-concurrency parts (the asyncio event loop) are embedded
  as the one linearisation the source actually produces: a directory's
  file loop runs before `asyncio.gather` schedules its child coroutines,
  and the gathered children are evaluated in listing order.
-/

/-- Validators.lowercase_list (source lines 13-16): lower-cases every string
of a configured exclusion list before it is stored. -/
def lowercase_list (value : List String) : List String :=
  value.map String.toLower

/-- FilterSettings (source lines 25-28): the three exclusion lists, each
already lower-cased by the `lowercase_list` validator when loaded. -/
structure FilterSettings where
  ignore_files : List String
  ignore_files_contains : List String
  ignore_folders : List String
deriving Repr, DecidableEq

/-- Boolean test that `sub` occurs at the head of `hay` (character lists). -/
def leadsWith : List Char → List Char → Bool
  | [], _ => true
  | _ :: _, [] => false
  | a :: s, b :: h => a == b && leadsWith s h

/-- Python's substring test `sub in hay`, on character lists: `sub` occurs
contiguously somewhere in `hay`. -/
def containsSub (sub : List Char) : List Char → Bool
  | [] => leadsWith sub []
  | c :: t => leadsWith sub (c :: t) || containsSub sub t

/-- The last segment of a path: `PurePosixPath(...).name` ("" for an empty
path). -/
def pathLastName (p : List String) : String :=
  p.getLastD ""

/-- NextcloudDownloader.item_filtered (source lines 124-135). Returns true
when the item survives the filters. `item_path` is the item's remote path;
`isdir` is the item's `isdir` flag. The name is lower-cased before it is
compared with the (already lower-cased) exclusion lists; a substring rule
matches with Python's `fn in file_name`. -/
def item_filtered (F : FilterSettings) (isdir : Bool) (item_path : List String) : Bool :=
  let file_name := (pathLastName item_path).toLower
  if isdir then
    if file_name ∈ F.ignore_folders then false else true
  else
    if file_name ∈ F.ignore_files then false
    else if F.ignore_files_contains.any (fun fn => containsSub fn.data file_name.data) then false
    else true

/-- A remote directory listing entry as `client.list(..., get_info=True)`
reports it: a file, or a subdirectory together with the outcome of later
listing that subdirectory (`none` models the listing call raising). -/
inductive Entry where
  | file (name : String)
  | dir (name : String) (listing : Option (List Entry))

/-- Observable actions of one walker run, in the order the source awaits
them. `ret p` records that the `process_directory` invocation for remote
path `p` returned to its caller. -/
inductive Event where
  | mkdir (p : List String)
  | listReq (p : List String)
  | listFail (p : List String)
  | enqueue (src dst : List String)
  | ret (p : List String)
deriving Repr, DecidableEq

/-- The file arm of the walker's item loop (source lines 108-114): a kept
file is enqueued with `put_nowait` unless a file already exists at its
destination. Directory items contribute nothing here — their coroutines are
only created, and run later under `asyncio.gather`. -/
def enqueueEvents (F : FilterSettings) (src dst : List String)
    (fs : List (List String)) : List Entry → List Event
  | [] => []
  | Entry.dir _ _ :: rest => enqueueEvents F src dst fs rest
  | Entry.file name :: rest =>
    (if item_filtered F false (src ++ [name]) then
      if (dst ++ [name]) ∈ fs then [] else [Event.enqueue (src ++ [name]) (dst ++ [name])]
     else []) ++ enqueueEvents F src dst fs rest

mutual
/-- NextcloudDownloader.process_directory (source lines 92-117) for the
remote directory `src`, mirrored at `dst`, whose listing outcome is
`listing`; `fs` is the local filesystem on entry. Returns the event trace
of this invocation and the filesystem afterwards. When the listing call
raises (`none`), the `@logger.catch` decorator on the method absorbs the
exception at the invocation's boundary, so the coroutine still returns
(`Event.ret`) and nothing below this directory is processed. -/
def processDirectory (F : FilterSettings) (src dst : List String)
    (listing : Option (List Entry)) (fs : List (List String)) :
    List Event × List (List String) :=
  match listing with
  | none =>
    ((if dst ∈ fs then ([] : List Event) else [Event.mkdir dst])
       ++ [Event.listReq src, Event.listFail src, Event.ret src],
     if dst ∈ fs then fs else dst :: fs)
  | some entries =>
    ((if dst ∈ fs then ([] : List Event) else [Event.mkdir dst])
       ++ [Event.listReq src]
       ++ enqueueEvents F src dst (if dst ∈ fs then fs else dst :: fs) entries
       ++ (processChildren F entries src dst (if dst ∈ fs then fs else dst :: fs)).1
       ++ [Event.ret src],
     (processChildren F entries src dst (if dst ∈ fs then fs else dst :: fs)).2)
termination_by sizeOf listing

/-- The `asyncio.gather(*work_items)` of source line 117: the child
traversals created for the kept subdirectories of the listing, evaluated in
listing order, threading the local filesystem through. -/
def processChildren (F : FilterSettings) (entries : List Entry)
    (src dst : List String) (fs : List (List String)) :
    List Event × List (List String) :=
  match entries with
  | [] => ([], fs)
  | Entry.file _ :: rest => processChildren F rest src dst fs
  | Entry.dir name l :: rest =>
    if item_filtered F true (src ++ [name]) then
      let c := processDirectory F (src ++ [name]) (dst ++ [name]) l fs
      let r := processChildren F rest src dst c.2
      (c.1 ++ r.1, r.2)
    else processChildren F rest src dst fs
termination_by sizeOf entries
end

mutual
/-- Remote paths of the kept subdirectories for which the walker spawns a
child traversal below a directory with the given listing outcome,
recursively (a directory whose own listing fails spawns no children). -/
def keptDirsListing (F : FilterSettings) (src : List String) :
    Option (List Entry) → List (List String)
  | none => []
  | some entries => keptDirsEntries F entries src
termination_by l => sizeOf l

def keptDirsEntries (F : FilterSettings) (entries : List Entry) (src : List String) :
    List (List String) :=
  match entries with
  | [] => []
  | Entry.file _ :: rest => keptDirsEntries F rest src
  | Entry.dir name l :: rest =>
    if item_filtered F true (src ++ [name]) then
      (src ++ [name]) :: (keptDirsListing F (src ++ [name]) l ++ keptDirsEntries F rest src)
    else keptDirsEntries F rest src
termination_by sizeOf entries

end

/-- Destinations of the kept files directly inside one listing. -/
def levelFileDests (F : FilterSettings) (src dst : List String) :
    List Entry → List (List String)
  | [] => []
  | Entry.dir _ _ :: rest => levelFileDests F src dst rest
  | Entry.file name :: rest =>
    (if item_filtered F false (src ++ [name]) then [dst ++ [name]] else [])
      ++ levelFileDests F src dst rest

mutual
/-- Destinations of every kept file the walker can reach below a directory,
recursively (independent of the local filesystem). -/
def keptFileDestsListing (F : FilterSettings) (src dst : List String) :
    Option (List Entry) → List (List String)
  | none => []
  | some entries => levelFileDests F src dst entries ++ nestedFileDests F entries src dst
termination_by l => sizeOf l

def nestedFileDests (F : FilterSettings) (entries : List Entry)
    (src dst : List String) : List (List String) :=
  match entries with
  | [] => []
  | Entry.file _ :: rest => nestedFileDests F rest src dst
  | Entry.dir name l :: rest =>
    (if item_filtered F true (src ++ [name]) then
      keptFileDestsListing F (src ++ [name]) (dst ++ [name]) l
     else [])
      ++ nestedFileDests F rest src dst
termination_by sizeOf entries
end

/-- The download jobs recorded in a trace: the (source, destination) pairs
handed to `queue.put_nowait`. -/
def enqueuedJobs (t : List Event) : List (List String × List String) :=
  t.filterMap fun e =>
    match e with
    | Event.enqueue s d => some (s, d)
    | _ => none

/-- The destination paths of the download jobs recorded in a trace. -/
def enqueuedDests (t : List Event) : List (List String) :=
  t.filterMap fun e =>
    match e with
    | Event.enqueue _ d => some d
    | _ => none

/-- Outcome of one `client.download_file` call: success, a
`aiodav.exceptions.WebDavException` (with the flag telling whether the
failed attempt left a partial file at the destination), or an exception of
any other class. -/
inductive TransferResult where
  | success
  | webdavError (partialCreated : Bool)
  | otherError
deriving Repr, DecidableEq

/-- Whether control leaves one iteration of the worker's `while True` body
normally or via an exception that escapes the loop. -/
inductive LoopOutcome where
  | continued
  | raised
deriving Repr, DecidableEq

/-- How the download_worker coroutine ends. `propagated` — an exception
leaving the coroutine and reaching its awaiter — is never produced:
`@logger.catch` (source line 71) logs and swallows anything that escapes
the loop, and `except QueueShutDown` returns normally. -/
inductive WorkerEnd where
  | shutdownReturn
  | absorbedError
  | propagated
deriving Repr, DecidableEq

/-- One iteration of download_worker's inner loop (source lines 77-87)
after dequeuing `job = (source, destination)`, with transfer outcome `res`,
on local filesystem `fs`. Returns (number of `task_done` calls made, the
filesystem afterwards, how the iteration ended). On success the downloaded
file exists at the destination. On a WebDAV error the handler runs
`if destination: Path(destination).unlink()` — `destination` is the
just-dequeued path string, hence truthy, so `unlink` is always attempted;
when no file exists there, `unlink` raises `FileNotFoundError`, which the
handler does not catch, so the iteration ends with `task_done` uncalled.
Any non-WebDAV exception escapes the loop at once. -/
def workerIterate (job : List String × List String) (res : TransferResult)
    (fs : List (List String)) : Nat × List (List String) × LoopOutcome :=
  match res with
  | TransferResult.success =>
    (1, if job.2 ∈ fs then fs else job.2 :: fs, LoopOutcome.continued)
  | TransferResult.webdavError partialCreated =>
    let fs1 := if partialCreated then (if job.2 ∈ fs then fs else job.2 :: fs) else fs
    if job.2 ∈ fs1 then (1, fs1.erase job.2, LoopOutcome.continued)
    else (0, fs1, LoopOutcome.raised)
  | TransferResult.otherError => (0, fs, LoopOutcome.raised)

/-- download_worker (source lines 71-90) run against a schedule: the list
of jobs the queue will deliver, each with its transfer outcome; after the
schedule is exhausted the queue has been shut down, so the next
`queue.get()` raises `QueueShutDown` and the worker returns (lines 88-90).
Returns (total `task_done` calls, final filesystem, how the coroutine
ended). An iteration that raises ends the loop; `@logger.catch` absorbs
the exception, so the coroutine still completes (`absorbedError`), leaving
the rest of the schedule unprocessed. -/
def workerLoop : List ((List String × List String) × TransferResult) →
    List (List String) → Nat × List (List String) × WorkerEnd
  | [], fs => (0, fs, WorkerEnd.shutdownReturn)
  | (j, r) :: rest, fs =>
    let s := workerIterate j r fs
    match s.2.2 with
    | LoopOutcome.continued =>
      let t := workerLoop rest s.2.1
      (s.1 + t.1, t.2.1, t.2.2)
    | LoopOutcome.raised => (s.1, s.2.1, WorkerEnd.absorbedError)

/-- Modelled from the spec: the Work Queue component. The source delegates
it to Python's `asyncio.Queue` (standard library, not part of src/), so its
state — the buffered jobs, the in-flight count and the shutdown flag — is
embedded here from spec section 4.2 / 3 (QueueState). -/
structure QueueState where
  buffer : List (List String × List String)
  inFlight : Nat
  shutdownFlag : Bool
deriving Repr, DecidableEq

/-- What one dequeue attempt yields: a job, the terminal shutdown signal
(`QueueShutDown`), or `blocked` — the caller suspends because no job is
available and shutdown has not been signaled. -/
inductive DequeueOutcome where
  | job (j : List String × List String)
  | shutdownSignal
  | blocked
deriving Repr, DecidableEq

/-- Modelled from the spec: `enqueue` (spec 4.2) — `put_nowait` adds a job
and increments the in-flight count, without blocking. -/
def enqueueQ (q : QueueState) (j : List String × List String) : QueueState :=
  { q with buffer := q.buffer ++ [j], inFlight := q.inFlight + 1 }

/-- Modelled from the spec: `dequeue` (spec 4.2) — yields the next buffered
job if one is available; with an empty buffer it yields the terminal
shutdown signal when shutdown has been signaled, and blocks otherwise. -/
def dequeueStep (q : QueueState) : DequeueOutcome × QueueState :=
  match q.buffer with
  | j :: rest => (DequeueOutcome.job j, { q with buffer := rest })
  | [] =>
    if q.shutdownFlag then (DequeueOutcome.shutdownSignal, q)
    else (DequeueOutcome.blocked, q)

/-- Modelled from the spec: `markDone` (spec 4.2) — `task_done` decrements
the in-flight count. -/
def markDoneQ (q : QueueState) : QueueState :=
  { q with inFlight := q.inFlight - 1 }

/-- Modelled from the spec: `join()` returns exactly when the in-flight
count is zero. -/
def joinReady (q : QueueState) : Prop :=
  q.inFlight = 0

/-- Modelled from the spec: `shutdown()` (spec 4.2) — sets the terminal
flag; every dequeue attempt thereafter sees it. -/
def shutdownQ (q : QueueState) : QueueState :=
  { q with shutdownFlag := true }

/-- The orchestration steps NextcloudDownloader.run awaits, in order. -/
inductive RunEvent where
  | startWorker
  | connectClient
  | walkRoot (src dst : List String)
  | joinQueue
  | shutdownQueue
  | awaitWorkers
  | closeClient
deriving Repr, DecidableEq

/-- The configuration run() reads: WebdavSettings.username / workers /
target_dirs and Settings.destination. -/
structure RunConfig where
  username : String
  workers : Nat
  target_dirs : List (List String)
  destination : List String
deriving Repr, DecidableEq

/-- The remote prefix `/remote.php/dav/files/<username>` built in
NextcloudDownloader.__init__ (source line 54). -/
def davBase (username : String) : List String :=
  ["remote.php", "dav", "files", username]

/-- NextcloudDownloader.run (source lines 56-69) as the sequence of
orchestration steps it performs, in source order: create the N worker
tasks (`asyncio.create_task` starts each without awaiting it), connect the
client, walk each configured root, await `queue.join()`, call
`queue.shutdown()`, await `client.close()`. The collected `worker_tasks`
list is never awaited, so no `awaitWorkers` step ever occurs. -/
def runEvents (cfg : RunConfig) : List RunEvent :=
  List.replicate cfg.workers RunEvent.startWorker
    ++ [RunEvent.connectClient]
    ++ cfg.target_dirs.map (fun d => RunEvent.walkRoot (davBase cfg.username ++ d) cfg.destination)
    ++ [RunEvent.joinQueue, RunEvent.shutdownQueue, RunEvent.closeClient]

/-- A filter configuration with no exclusion rules. -/
def emptyFilters : FilterSettings :=
  ⟨[], [], []⟩

/-! Unfolding equations for the well-founded walker definitions, used by all
later proofs. -/

theorem processDirectory_none (F : FilterSettings) (src dst : List String)
    (fs : List (List String)) :
    processDirectory F src dst none fs =
      ((if dst ∈ fs then ([] : List Event) else [Event.mkdir dst])
         ++ [Event.listReq src, Event.listFail src, Event.ret src],
       if dst ∈ fs then fs else dst :: fs) := by
  simp [processDirectory]

theorem processDirectory_some (F : FilterSettings) (src dst : List String)
    (entries : List Entry) (fs : List (List String)) :
    processDirectory F src dst (some entries) fs =
      ((if dst ∈ fs then ([] : List Event) else [Event.mkdir dst])
         ++ [Event.listReq src]
         ++ enqueueEvents F src dst (if dst ∈ fs then fs else dst :: fs) entries
         ++ (processChildren F entries src dst (if dst ∈ fs then fs else dst :: fs)).1
         ++ [Event.ret src],
       (processChildren F entries src dst (if dst ∈ fs then fs else dst :: fs)).2) := by
  simp [processDirectory]

theorem processChildren_nil (F : FilterSettings) (src dst : List String)
    (fs : List (List String)) : processChildren F [] src dst fs = ([], fs) := by
  simp [processChildren]

theorem processChildren_file (F : FilterSettings) (name : String) (rest : List Entry)
    (src dst : List String) (fs : List (List String)) :
    processChildren F (Entry.file name :: rest) src dst fs =
      processChildren F rest src dst fs := by
  simp [processChildren]

theorem processChildren_dir_kept (F : FilterSettings) (name : String)
    (l : Option (List Entry)) (rest : List Entry) (src dst : List String)
    (fs : List (List String)) (h : item_filtered F true (src ++ [name]) = true) :
    processChildren F (Entry.dir name l :: rest) src dst fs =
      ((processDirectory F (src ++ [name]) (dst ++ [name]) l fs).1
         ++ (processChildren F rest src dst
              (processDirectory F (src ++ [name]) (dst ++ [name]) l fs).2).1,
       (processChildren F rest src dst
          (processDirectory F (src ++ [name]) (dst ++ [name]) l fs).2).2) := by
  simp [processChildren, h]

theorem processChildren_dir_skip (F : FilterSettings) (name : String)
    (l : Option (List Entry)) (rest : List Entry) (src dst : List String)
    (fs : List (List String)) (h : item_filtered F true (src ++ [name]) = false) :
    processChildren F (Entry.dir name l :: rest) src dst fs =
      processChildren F rest src dst fs := by
  simp [processChildren, h]

/-! Small helpers about the mkdir step. -/

theorem subset_mkdirStep (fs : List (List String)) (p : List String) :
    fs ⊆ (if p ∈ fs then fs else p :: fs) := by
  by_cases h : p ∈ fs <;> simp [h, List.subset_cons_self]

theorem mem_mkdirStep (fs : List (List String)) (p : List String) :
    p ∈ (if p ∈ fs then fs else p :: fs) := by
  by_cases h : p ∈ fs <;> simp [h]

/-! The local filesystem only grows during a walk. -/

theorem fs_subset_processChildren (F : FilterSettings) :
    ∀ (entries : List Entry) (src dst : List String) (fs : List (List String)),
      fs ⊆ (processChildren F entries src dst fs).2 := by
  refine processChildren.induct F
    (fun src dst listing fs => fs ⊆ (processDirectory F src dst listing fs).2)
    (fun entries src dst fs => fs ⊆ (processChildren F entries src dst fs).2)
    ?_ ?_ ?_ ?_ ?_ ?_
  · intro src dst fs
    rw [processDirectory_none]
    exact subset_mkdirStep fs dst
  · intro src dst fs entries ih
    rw [processDirectory_some]
    exact (subset_mkdirStep fs dst).trans (by simpa using ih)
  · intro src dst fs
    rw [processChildren_nil]
    exact fun x hx => hx
  · intro src dst fs name rest ih
    rw [processChildren_file]
    exact ih
  · intro src dst fs name l rest hkeep c ih1 ih2
    rw [processChildren_dir_kept F name l rest src dst fs hkeep]
    exact ih1.trans ih2
  · intro src dst fs name l rest hkeep ih
    rw [processChildren_dir_skip F name l rest src dst fs (by simpa using hkeep)]
    exact ih

theorem fs_subset_processDirectory (F : FilterSettings) (src dst : List String)
    (listing : Option (List Entry)) (fs : List (List String)) :
    fs ⊆ (processDirectory F src dst listing fs).2 := by
  cases listing with
  | none =>
    rw [processDirectory_none]
    exact subset_mkdirStep fs dst
  | some entries =>
    rw [processDirectory_some]
    exact (subset_mkdirStep fs dst).trans
      (fs_subset_processChildren F entries src dst _)

/-! Substring matching: `containsSub` is Python's `sub in hay`. -/

theorem leadsWith_iff (s : List Char) :
    ∀ h : List Char, leadsWith s h = true ↔ ∃ t, h = s ++ t := by
  induction s with
  | nil => intro h; simp [leadsWith]
  | cons a s ih =>
    intro h
    cases h with
    | nil => simp [leadsWith]
    | cons b t =>
      simp only [leadsWith, Bool.and_eq_true, beq_iff_eq, ih t, List.cons_append,
        List.cons.injEq]
      constructor
      · rintro ⟨rfl, u, rfl⟩; exact ⟨u, rfl, rfl⟩
      · rintro ⟨u, rfl, rfl⟩; exact ⟨rfl, u, rfl⟩

theorem containsSub_iff (s : List Char) :
    ∀ h : List Char, containsSub s h = true ↔ ∃ u v, h = u ++ s ++ v := by
  intro h
  induction h with
  | nil =>
    simp only [containsSub, leadsWith_iff]
    constructor
    · rintro ⟨t, ht⟩
      obtain ⟨rfl, rfl⟩ := List.nil_eq_append_iff.mp ht
      exact ⟨[], [], rfl⟩
    · rintro ⟨u, v, huv⟩
      obtain ⟨h1, rfl⟩ := List.nil_eq_append_iff.mp huv
      obtain ⟨rfl, rfl⟩ := List.append_eq_nil.mp h1
      exact ⟨[], rfl⟩
  | cons c t ih =>
    simp only [containsSub, Bool.or_eq_true, leadsWith_iff, ih]
    constructor
    · rintro (⟨u, hu⟩ | ⟨u, v, huv⟩)
      · exact ⟨[], u, by simpa using hu⟩
      · exact ⟨c :: u, v, by simp [huv]⟩
    · rintro ⟨u, v, huv⟩
      cases u with
      | nil => exact Or.inl ⟨v, by simpa using huv⟩
      | cons d u =>
        rw [List.cons_append, List.cons_append] at huv
        obtain ⟨rfl, h2⟩ := List.cons_eq_cons.mp huv
        exact Or.inr ⟨u, v, by simpa using h2⟩

/-- C6: the Filter Engine is a pure total Boolean predicate (a Lean function
by construction): a directory item is rejected iff its lower-cased final
path segment exactly matches a folder exclusion; a file item is rejected iff
its lower-cased final path segment exactly matches a file exclusion or has
some substring exclusion as a contiguous substring (the stored exclusions
are already lower-cased by the `lowercase_list` validator, and the name is
lower-cased before matching, which makes the match case-insensitive);
otherwise the item is kept. -/
theorem c6_item_filtered_rejects_iff (F : FilterSettings) (isdir : Bool) (p : List String) :
    item_filtered F isdir p = false ↔
      ((isdir = true ∧ (pathLastName p).toLower ∈ F.ignore_folders) ∨
       (isdir = false ∧ ((pathLastName p).toLower ∈ F.ignore_files ∨
         ∃ fn ∈ F.ignore_files_contains, ∃ u v,
           ((pathLastName p).toLower).data = u ++ fn.data ++ v))) := by
  cases isdir with
  | true =>
    simp only [item_filtered, if_true]
    split_ifs with h1 <;> simp_all
  | false =>
    simp only [item_filtered, if_false]
    split_ifs with h1 h2 <;>
      simp_all [List.any_eq_true, containsSub_iff]

/-- C1 (code bug): the worker does not always call task_done exactly once
per dequeued job. Witnessed schedule: the first dequeued job succeeds, the
second fails with a WebDAV error that leaves no partial file at its
destination; the handler's unguarded `Path(destination).unlink()` then
raises FileNotFoundError, the loop dies with `task_done` uncalled, and the
`@logger.catch` wrapper swallows the exception. Two jobs were dequeued but
`task_done` ran once, so `queue.join()` — which needs one markDone per
enqueued job — can never return. -/
theorem c1_two_jobs_one_task_done :
    workerLoop [((["s", "a"], ["d", "a"]), TransferResult.success),
                ((["s", "b"], ["d", "b"]), TransferResult.webdavError false)] [] =
      (1, [["d", "a"]], WorkerEnd.absorbedError) := by
  decide

/-- C2 (code bug): on a WebDAV transfer failure the worker attempts the
deletion unconditionally — `if destination:` tests the dequeued path string
(always truthy), not whether a file exists — and the deletion is not
best-effort: with no file at the destination, `unlink` raises
FileNotFoundError, which escalates out of the handler, terminates the
worker loop and leaves the job unmarked (first conjunct); only when a
partial file does exist is it removed and the job marked done (second
conjunct). -/
theorem c2_unlink_escalates_without_file :
    workerIterate (["s", "x"], ["d", "x"]) (TransferResult.webdavError false) [] =
      (0, [], LoopOutcome.raised) ∧
    workerIterate (["s", "x"], ["d", "x"]) (TransferResult.webdavError true) [] =
      (1, [], LoopOutcome.continued) := by
  decide

/-- C3 counterexample: a non-WebDAV error raised while processing a dequeued
job does not propagate out of the worker: the loop dies, but the
`@logger.catch` decorator on download_worker logs and swallows the
exception, so the coroutine completes normally (`absorbedError`, not
`propagated`) and the run is not terminated. -/
theorem c3_counterexample_other_error_swallowed :
    workerLoop [((["s", "y"], ["d", "y"]), TransferResult.otherError)] [] =
      (0, [], WorkerEnd.absorbedError) ∧
    WorkerEnd.absorbedError ≠ WorkerEnd.propagated := by
  decide

/-- C3 (amended): an error not recognized as transfer-level (and not the
shutdown signal) terminates the worker's processing loop at once — it is
not handled as a transfer failure and no task_done is issued — but it is
absorbed by the logger-catch wrapper at the worker's boundary: the worker
coroutine ends without propagating anything to the orchestrator (no
schedule ever makes a worker end in `propagated`), and the run is not
terminated. -/
theorem c3_amended_unrecognized_error_absorbed
    (j : List String × List String)
    (rest : List ((List String × List String) × TransferResult))
    (fs : List (List String)) :
    workerLoop ((j, TransferResult.otherError) :: rest) fs =
      (0, fs, WorkerEnd.absorbedError) ∧
    ∀ (sched : List ((List String × List String) × TransferResult))
      (fs2 : List (List String)),
      (workerLoop sched fs2).2.2 ≠ WorkerEnd.propagated := by
  constructor
  · simp [workerLoop, workerIterate]
  · intro sched
    induction sched with
    | nil => intro fs2; simp [workerLoop]
    | cons p t ih =>
      intro fs2
      obtain ⟨j2, r⟩ := p
      simp only [workerLoop]
      split
      · simp only []
        exact ih _
      · simp

/-- C4 (code bug): run() does call shutdown() only after join() has
returned, but it then releases the client connection immediately — the
collected worker_tasks list is never awaited, so no wait-for-workers step
exists between `queue.shutdown()` and `client.close()`. Evaluated at a
configuration with two workers and one target directory. -/
theorem c4_run_never_awaits_workers :
    runEvents ⟨"alice", 2, [["docs"]], ["dest"]⟩ =
      [RunEvent.startWorker, RunEvent.startWorker, RunEvent.connectClient,
       RunEvent.walkRoot ["remote.php", "dav", "files", "alice", "docs"] ["dest"],
       RunEvent.joinQueue, RunEvent.shutdownQueue, RunEvent.closeClient] ∧
    RunEvent.awaitWorkers ∉ runEvents ⟨"alice", 2, [["docs"]], ["dest"]⟩ := by
  decide

/-- C8: a dequeue attempt suspends the caller exactly when no job is
buffered and shutdown has not been signaled; with an empty buffer and
shutdown signaled it yields the terminal signal instead of blocking.
Signaling shutdown while a worker is blocked turns its pending dequeue into
the terminal signal without consuming queue state — so when all N workers
are blocked, each of their retries sees the same shut-down state and every
one is unblocked — and a worker that receives the signal exits its loop and
returns (source lines 88-90, `except QueueShutDown`). -/
theorem c8_dequeue_blocks_iff_shutdown_unblocks (q : QueueState) :
    ((dequeueStep q).1 = DequeueOutcome.blocked ↔
       (q.buffer = [] ∧ q.shutdownFlag = false)) ∧
    (q.buffer = [] → q.shutdownFlag = true →
       (dequeueStep q).1 = DequeueOutcome.shutdownSignal) ∧
    ((dequeueStep q).1 = DequeueOutcome.blocked →
       dequeueStep (shutdownQ q) = (DequeueOutcome.shutdownSignal, shutdownQ q)) ∧
    (∀ fs, workerLoop [] fs = (0, fs, WorkerEnd.shutdownReturn)) := by
  obtain ⟨buf, n, sd⟩ := q
  cases buf <;> cases sd <;>
    simp [dequeueStep, shutdownQ, workerLoop]

/-- C8 witness: the queue state with an empty buffer, nothing in flight and
no shutdown signaled blocks a dequeuer; after shutdown() the pending
dequeue yields the terminal signal. -/
theorem c8_witness :
    dequeueStep (shutdownQ ⟨[], 0, false⟩) =
      (DequeueOutcome.shutdownSignal, shutdownQ ⟨[], 0, false⟩) :=
  (c8_dequeue_blocks_iff_shutdown_unblocks ⟨[], 0, false⟩).2.2.1 (by decide)

/-! Every walker invocation records its own return event. -/

theorem ret_mem_processDirectory (F : FilterSettings) (src dst : List String)
    (listing : Option (List Entry)) (fs : List (List String)) :
    Event.ret src ∈ (processDirectory F src dst listing fs).1 := by
  cases listing with
  | none => rw [processDirectory_none]; simp
  | some es => rw [processDirectory_some]; simp

theorem ret_mem_keptDirs_processChildren (F : FilterSettings) :
    ∀ (entries : List Entry) (src dst : List String) (fs : List (List String)),
      ∀ d ∈ keptDirsEntries F entries src,
        Event.ret d ∈ (processChildren F entries src dst fs).1 := by
  refine processChildren.induct F
    (fun src dst listing fs => ∀ d ∈ keptDirsListing F src listing,
        Event.ret d ∈ (processDirectory F src dst listing fs).1)
    (fun entries src dst fs => ∀ d ∈ keptDirsEntries F entries src,
        Event.ret d ∈ (processChildren F entries src dst fs).1)
    ?_ ?_ ?_ ?_ ?_ ?_
  · intro src dst fs d hd
    simp [keptDirsListing] at hd
  · intro src dst fs entries ih d hd
    have hd2 : d ∈ keptDirsEntries F entries src := by
      simpa [keptDirsListing] using hd
    have hin := ih d hd2
    simp only [dite_eq_ite] at hin
    simp [processDirectory_some, List.mem_append, hin]
  · intro src dst fs d hd
    simp [keptDirsEntries] at hd
  · intro src dst fs name rest ih d hd
    rw [processChildren_file]
    exact ih d (by simpa [keptDirsEntries] using hd)
  · intro src dst fs name l rest hkeep c ih1 ih2 d hd
    rw [processChildren_dir_kept F name l rest src dst fs hkeep]
    simp only [keptDirsEntries, hkeep, if_true, List.mem_cons, List.mem_append] at hd
    rcases hd with rfl | hd | hd
    · exact List.mem_append.mpr (Or.inl (ret_mem_processDirectory F _ _ l fs))
    · exact List.mem_append.mpr (Or.inl (ih1 d hd))
    · exact List.mem_append.mpr (Or.inr (ih2 d hd))
  · intro src dst fs name l rest hkeep ih d hd
    have hk : item_filtered F true (src ++ [name]) = false := by
      simpa using hkeep
    rw [processChildren_dir_skip F name l rest src dst fs hk]
    exact ih d (by simpa [keptDirsEntries, hk] using hd)

theorem ret_mem_keptDirs_processDirectory (F : FilterSettings) (src dst : List String)
    (listing : Option (List Entry)) (fs : List (List String)) :
    ∀ d ∈ keptDirsListing F src listing,
      Event.ret d ∈ (processDirectory F src dst listing fs).1 := by
  cases listing with
  | none => intro d hd; simp [keptDirsListing] at hd
  | some es =>
    intro d hd
    have hd2 : d ∈ keptDirsEntries F es src := by simpa [keptDirsListing] using hd
    have hin := ret_mem_keptDirs_processChildren F es src dst
      (if dst ∈ fs then fs else dst :: fs) d hd2
    simp [processDirectory_some, List.mem_append, hin]

/-! A spawned child traversal's remote path is strictly longer than its
parent's, so the child's return event is distinct from the parent's. -/

theorem keptDirsEntries_longer (F : FilterSettings) :
    ∀ (entries : List Entry) (src : List String),
      ∀ d ∈ keptDirsEntries F entries src, src.length < d.length := by
  refine keptDirsEntries.induct F
    (fun src listing => ∀ d ∈ keptDirsListing F src listing, src.length < d.length)
    (fun entries src => ∀ d ∈ keptDirsEntries F entries src, src.length < d.length)
    ?_ ?_ ?_ ?_ ?_ ?_
  · intro src d hd
    simp [keptDirsListing] at hd
  · intro src entries ih d hd
    exact ih d (by simpa [keptDirsListing] using hd)
  · intro src d hd
    simp [keptDirsEntries] at hd
  · intro src name rest ih d hd
    exact ih d (by simpa [keptDirsEntries] using hd)
  · intro src name l rest hkeep ih1 ih2 d hd
    simp only [keptDirsEntries, hkeep, if_true, List.mem_cons, List.mem_append] at hd
    rcases hd with rfl | hd | hd
    · simp
    · have := ih1 d hd
      simp only [List.length_append, List.length_singleton] at this
      omega
    · exact ih2 d hd
  · intro src name l rest hkeep ih d hd
    have hk : item_filtered F true (src ++ [name]) = false := by simpa using hkeep
    exact ih d (by simpa [keptDirsEntries, hk] using hd)

theorem keptDirsListing_longer (F : FilterSettings) (src : List String)
    (listing : Option (List Entry)) :
    ∀ d ∈ keptDirsListing F src listing, src.length < d.length := by
  cases listing with
  | none => intro d hd; simp [keptDirsListing] at hd
  | some es =>
    intro d hd
    exact keptDirsEntries_longer F es src d (by simpa [keptDirsListing] using hd)

theorem processDirectory_ends_ret (F : FilterSettings) (src dst : List String)
    (listing : Option (List Entry)) (fs : List (List String)) :
    ∃ t, (processDirectory F src dst listing fs).1 = t ++ [Event.ret src] := by
  cases listing with
  | none =>
    rw [processDirectory_none]
    exact ⟨(if dst ∈ fs then ([] : List Event) else [Event.mkdir dst])
      ++ [Event.listReq src, Event.listFail src], by simp⟩
  | some es =>
    rw [processDirectory_some]
    exact ⟨(if dst ∈ fs then ([] : List Event) else [Event.mkdir dst])
      ++ [Event.listReq src]
      ++ enqueueEvents F src dst (if dst ∈ fs then fs else dst :: fs) es
      ++ (processChildren F es src dst (if dst ∈ fs then fs else dst :: fs)).1,
      by simp⟩

/-- C5: a walk invocation returns only after every concurrently-launched
child-directory traversal it spawned has completed, recursively: the trace
of `process_directory` ends with its own return event, and the return
event of every kept subdirectory (for which a child coroutine was created
and gathered) occurs strictly earlier in the trace. Hence the
orchestrator's `queue.join()` — awaited only after the top-level walks
return — is reached only once the whole reachable remote tree has been
listed and its file jobs enqueued. -/
theorem c5_walk_returns_after_all_spawned_children (F : FilterSettings)
    (src dst : List String) (listing : Option (List Entry))
    (fs : List (List String)) :
    ∃ t, (processDirectory F src dst listing fs).1 = t ++ [Event.ret src] ∧
      ∀ d ∈ keptDirsListing F src listing, Event.ret d ∈ t := by
  obtain ⟨t, ht⟩ := processDirectory_ends_ret F src dst listing fs
  refine ⟨t, ht, ?_⟩
  intro d hd
  have hmem := ret_mem_keptDirs_processDirectory F src dst listing fs d hd
  rw [ht] at hmem
  rcases List.mem_append.mp hmem with h1 | h1
  · exact h1
  · exfalso
    simp only [List.mem_singleton, Event.ret.injEq] at h1
    subst h1
    exact lt_irrefl _ (keptDirsListing_longer F d listing d hd)

/-- C10: the walker creates the local directory (when absent) before it
issues the remote listing request — the trace begins with the mkdir event
followed by the listing request — and the directory exists on disk when
the call returns, whatever the listing holds (empty, all items excluded,
or even a listing failure). -/
theorem c10_mkdir_before_listing (F : FilterSettings) (src dst : List String)
    (listing : Option (List Entry)) (fs : List (List String)) (h : dst ∉ fs) :
    (∃ t, (processDirectory F src dst listing fs).1 =
        Event.mkdir dst :: Event.listReq src :: t) ∧
      dst ∈ (processDirectory F src dst listing fs).2 := by
  cases listing with
  | none =>
    rw [processDirectory_none]
    exact ⟨⟨[Event.listFail src, Event.ret src], by simp [h]⟩, by simp [h]⟩
  | some es =>
    rw [processDirectory_some]
    constructor
    · exact ⟨enqueueEvents F src dst (if dst ∈ fs then fs else dst :: fs) es
        ++ (processChildren F es src dst (if dst ∈ fs then fs else dst :: fs)).1
        ++ [Event.ret src], by simp [h]⟩
    · exact fs_subset_processChildren F es src dst _ (mem_mkdirStep fs dst)

/-- C10 witness: a walk of remote directory r into absent local directory d
whose listing fails still creates d first and leaves it existing. -/
theorem c10_witness :
    (∃ t, (processDirectory emptyFilters ["r"] ["d"] none []).1 =
        Event.mkdir ["d"] :: Event.listReq ["r"] :: t) ∧
      ["d"] ∈ (processDirectory emptyFilters ["r"] ["d"] none []).2 :=
  c10_mkdir_before_listing emptyFilters ["r"] ["d"] none [] (by decide)

/-- C9 counterexample: a remote-listing failure does not propagate out of
the Walker. Concrete run: the root listing holds a subdirectory "bad" whose
listing call raises, followed by the file "a.txt". The walker still
enqueues a.txt, the failed subdirectory's traversal ends in its own normal
return event (the `@logger.catch` wrapper on `process_directory` absorbs
the exception at the invocation boundary), and the parent walk also
returns normally — the failure is absorbed inside the Walker, not
propagated. -/
theorem c9_counterexample_listing_failure_absorbed :
    (processDirectory emptyFilters ["r"] ["d"]
        (some [Entry.dir "bad" none, Entry.file "a.txt"]) []).1 =
      [Event.mkdir ["d"], Event.listReq ["r"],
       Event.enqueue ["r", "a.txt"] ["d", "a.txt"],
       Event.mkdir ["d", "bad"], Event.listReq ["r", "bad"],
       Event.listFail ["r", "bad"], Event.ret ["r", "bad"],
       Event.ret ["r"]] := by
  rw [processDirectory_some]
  rw [processChildren_dir_kept emptyFilters "bad" none [Entry.file "a.txt"]
    ["r"] ["d"] _ (by decide)]
  rw [processDirectory_none, processChildren_file, processChildren_nil]
  simp [enqueueEvents, item_filtered, emptyFilters, pathLastName]

/-- C9 (amended): when the remote-listing call fails for a kept
subdirectory, that subdirectory's traversal is abandoned — its trace is
just mkdir (when needed), the listing request, the logged failure and a
normal return, with nothing enqueued below it — but the exception is
absorbed by the logging wrapper at the walker invocation's boundary rather
than propagated: the invocation completes, and the sibling entries of the
parent listing are still processed afterwards. -/
theorem c9_amended_listing_failure_not_fatal_to_run (F : FilterSettings)
    (name : String) (rest : List Entry) (src dst : List String)
    (fs : List (List String))
    (hkeep : item_filtered F true (src ++ [name]) = true) :
    processChildren F (Entry.dir name none :: rest) src dst fs =
      (((if (dst ++ [name]) ∈ fs then ([] : List Event)
           else [Event.mkdir (dst ++ [name])])
          ++ [Event.listReq (src ++ [name]), Event.listFail (src ++ [name]),
              Event.ret (src ++ [name])])
         ++ (processChildren F rest src dst
              (if (dst ++ [name]) ∈ fs then fs else (dst ++ [name]) :: fs)).1,
       (processChildren F rest src dst
          (if (dst ++ [name]) ∈ fs then fs else (dst ++ [name]) :: fs)).2) ∧
    enqueuedJobs (processDirectory F (src ++ [name]) (dst ++ [name]) none fs).1 = [] := by
  constructor
  · rw [processChildren_dir_kept F name none rest src dst fs hkeep,
      processDirectory_none]
  · rw [processDirectory_none]
    by_cases hm : (dst ++ [name]) ∈ fs <;> simp [hm, enqueuedJobs]

/-- C9 amended witness: with no exclusion rules, a subdirectory "bad" of
remote directory r whose listing fails contributes exactly the absorbed
failure trace, and the traversal of the remaining sibling entries
continues. -/
theorem c9_amended_witness :
    processChildren emptyFilters (Entry.dir "bad" none :: [Entry.file "a.txt"])
        ["r"] ["d"] [] =
      ([Event.mkdir ["d", "bad"], Event.listReq ["r", "bad"],
          Event.listFail ["r", "bad"], Event.ret ["r", "bad"]]
         ++ (processChildren emptyFilters [Entry.file "a.txt"] ["r"] ["d"]
              [["d", "bad"]]).1,
       (processChildren emptyFilters [Entry.file "a.txt"] ["r"] ["d"]
          [["d", "bad"]]).2) ∧
    enqueuedJobs (processDirectory emptyFilters ["r", "bad"] ["d", "bad"] none []).1
      = [] := by
  have h := c9_amended_listing_failure_not_fatal_to_run emptyFilters "bad"
    [Entry.file "a.txt"] ["r"] ["d"] [] (by decide)
  simpa using h

/-! The file arm of the item loop: membership characterisation and
behaviour when every candidate destination already exists. -/

theorem enqueue_mem_enqueueEvents_iff (F : FilterSettings) (src dst : List String)
    (fs : List (List String)) (name : String) :
    ∀ es : List Entry,
      Event.enqueue (src ++ [name]) (dst ++ [name]) ∈ enqueueEvents F src dst fs es ↔
        (Entry.file name ∈ es ∧ item_filtered F false (src ++ [name]) = true ∧
          (dst ++ [name]) ∉ fs) := by
  intro es
  induction es with
  | nil => simp [enqueueEvents]
  | cons e rest ih =>
    cases e with
    | dir n l =>
      rw [enqueueEvents]
      rw [ih]
      constructor
      · rintro ⟨h1, h2, h3⟩
        exact ⟨List.mem_cons_of_mem _ h1, h2, h3⟩
      · rintro ⟨h1, h2, h3⟩
        rcases List.mem_cons.mp h1 with h | h
        · cases h
        · exact ⟨h, h2, h3⟩
    | file n =>
      by_cases hn : n = name
      · subst hn
        by_cases hk : item_filtered F false (src ++ [n]) = true <;>
          by_cases he : (dst ++ [n]) ∈ fs <;>
            simp [enqueueEvents, hk, he, ih]
      · have hn2 : ¬ name = n := fun h => hn h.symm
        by_cases hk : item_filtered F false (src ++ [n]) = true <;>
          by_cases he : (dst ++ [n]) ∈ fs <;>
            simp [enqueueEvents, hk, he, ih, hn, hn2, List.append_right_inj]

theorem enqueueEvents_eq_nil (F : FilterSettings) (src dst : List String)
    (fs : List (List String)) :
    ∀ es : List Entry,
      (∀ d ∈ levelFileDests F src dst es, d ∈ fs) →
      enqueueEvents F src dst fs es = [] := by
  intro es
  induction es with
  | nil => intro _; simp [enqueueEvents]
  | cons e rest ih =>
    cases e with
    | dir n l =>
      intro h
      rw [enqueueEvents]
      exact ih (fun d hd => h d (by simpa [levelFileDests] using hd))
    | file n =>
      intro h
      by_cases hk : item_filtered F false (src ++ [n]) = true
      · have hd : (dst ++ [n]) ∈ fs := h _ (by simp [levelFileDests, hk])
        rw [enqueueEvents]
        simp only [hk, if_true, hd, List.nil_append]
        exact ih (fun d hdd => h d (by simp [levelFileDests, hk, hdd]))
      · have hk2 : item_filtered F false (src ++ [n]) = false := by simpa using hk
        rw [enqueueEvents]
        simp only [hk2, Bool.false_eq_true, if_false, List.nil_append]
        exact ih (fun d hdd => h d (by simp [levelFileDests, hk2, hdd]))

theorem enqueuedDests_append (a b : List Event) :
    enqueuedDests (a ++ b) = enqueuedDests a ++ enqueuedDests b := by
  simp [enqueuedDests]

theorem enqueuedJobs_append (a b : List Event) :
    enqueuedJobs (a ++ b) = enqueuedJobs a ++ enqueuedJobs b := by
  simp [enqueuedJobs]

theorem enqueuedDests_nil : enqueuedDests [] = [] := rfl

theorem enqueuedJobs_nil : enqueuedJobs [] = [] := rfl

theorem enqueuedDests_cons (e : Event) (t : List Event) :
    enqueuedDests (e :: t) =
      (match e with | Event.enqueue _ d => [d] | _ => []) ++ enqueuedDests t := by
  cases e <;> simp [enqueuedDests]

theorem enqueuedJobs_cons (e : Event) (t : List Event) :
    enqueuedJobs (e :: t) =
      (match e with | Event.enqueue s d => [(s, d)] | _ => []) ++ enqueuedJobs t := by
  cases e <;> simp [enqueuedJobs]

theorem levelFileDests_covered (F : FilterSettings) (src dst : List String)
    (fs : List (List String)) :
    ∀ es : List Entry, ∀ d ∈ levelFileDests F src dst es,
      d ∈ fs ∨ d ∈ enqueuedDests (enqueueEvents F src dst fs es) := by
  intro es
  induction es with
  | nil => intro d hd; simp [levelFileDests] at hd
  | cons e rest ih =>
    cases e with
    | dir n l =>
      intro d hd
      rcases ih d (by simpa [levelFileDests] using hd) with h | h
      · exact Or.inl h
      · exact Or.inr (by rw [enqueueEvents]; exact h)
    | file n =>
      intro d hd
      rw [enqueueEvents, enqueuedDests_append]
      by_cases hk : item_filtered F false (src ++ [n]) = true
      · simp only [levelFileDests, hk, if_true, List.singleton_append,
          List.mem_cons] at hd
        rcases hd with rfl | hd
        · by_cases he : (dst ++ [n]) ∈ fs
          · exact Or.inl he
          · refine Or.inr (List.mem_append.mpr (Or.inl ?_))
            simp [hk, he, enqueuedDests]
        · rcases ih d hd with h | h
          · exact Or.inl h
          · exact Or.inr (List.mem_append.mpr (Or.inr h))
      · have hk2 : item_filtered F false (src ++ [n]) = false := by simpa using hk
        rcases ih d (by simpa [levelFileDests, hk2] using hd) with h | h
        · exact Or.inl h
        · exact Or.inr (List.mem_append.mpr (Or.inr h))

theorem nestedFileDests_covered_processChildren (F : FilterSettings) :
    ∀ (entries : List Entry) (src dst : List String) (fs : List (List String)),
      ∀ d ∈ nestedFileDests F entries src dst,
        d ∈ (processChildren F entries src dst fs).2 ∨
          d ∈ enqueuedDests (processChildren F entries src dst fs).1 := by
  refine processChildren.induct F
    (fun src dst listing fs => ∀ d ∈ keptFileDestsListing F src dst listing,
        d ∈ (processDirectory F src dst listing fs).2 ∨
          d ∈ enqueuedDests (processDirectory F src dst listing fs).1)
    (fun entries src dst fs => ∀ d ∈ nestedFileDests F entries src dst,
        d ∈ (processChildren F entries src dst fs).2 ∨
          d ∈ enqueuedDests (processChildren F entries src dst fs).1)
    ?_ ?_ ?_ ?_ ?_ ?_
  · intro src dst fs d hd
    simp [keptFileDestsListing] at hd
  · intro src dst fs entries ih d hd
    simp only [dite_eq_ite] at ih
    simp only [keptFileDestsListing, List.mem_append] at hd
    rcases hd with hd | hd
    · rcases levelFileDests_covered F src dst
        (if dst ∈ fs then fs else dst :: fs) entries d hd with h | h
      · exact Or.inl (by
          simp only [processDirectory_some]
          exact fs_subset_processChildren F entries src dst _ h)
      · refine Or.inr ?_
        simp [processDirectory_some, enqueuedDests_append, enqueuedDests_cons,
          enqueuedDests_nil, List.mem_append, h]
    · rcases ih d hd with h | h
      · exact Or.inl (by simp only [processDirectory_some]; exact h)
      · refine Or.inr ?_
        simp [processDirectory_some, enqueuedDests_append, enqueuedDests_cons,
          enqueuedDests_nil, List.mem_append, h]
  · intro src dst fs d hd
    simp [nestedFileDests] at hd
  · intro src dst fs name rest ih d hd
    rw [processChildren_file]
    exact ih d (by simpa [nestedFileDests] using hd)
  · intro src dst fs name l rest hkeep c ih1 ih2 d hd
    rw [processChildren_dir_kept F name l rest src dst fs hkeep]
    simp only [nestedFileDests, hkeep, if_true, List.mem_append] at hd
    rcases hd with hd | hd
    · rcases ih1 d hd with h | h
      · exact Or.inl (fs_subset_processChildren F rest src dst _ h)
      · refine Or.inr ?_
        simp only [enqueuedDests_append, List.mem_append]
        exact Or.inl h
    · rcases ih2 d hd with h | h
      · exact Or.inl h
      · refine Or.inr ?_
        simp only [enqueuedDests_append, List.mem_append]
        exact Or.inr h
  · intro src dst fs name l rest hkeep ih d hd
    have hk : item_filtered F true (src ++ [name]) = false := by simpa using hkeep
    rw [processChildren_dir_skip F name l rest src dst fs hk]
    exact ih d (by simpa [nestedFileDests, hk] using hd)

theorem keptFileDests_covered_processDirectory (F : FilterSettings)
    (src dst : List String) (listing : Option (List Entry))
    (fs : List (List String)) :
    ∀ d ∈ keptFileDestsListing F src dst listing,
      d ∈ (processDirectory F src dst listing fs).2 ∨
        d ∈ enqueuedDests (processDirectory F src dst listing fs).1 := by
  cases listing with
  | none => intro d hd; simp [keptFileDestsListing] at hd
  | some es =>
    intro d hd
    simp only [keptFileDestsListing, List.mem_append] at hd
    rcases hd with hd | hd
    · rcases levelFileDests_covered F src dst
        (if dst ∈ fs then fs else dst :: fs) es d hd with h | h
      · exact Or.inl (by
          simp only [processDirectory_some]
          exact fs_subset_processChildren F es src dst _ h)
      · refine Or.inr ?_
        simp [processDirectory_some, enqueuedDests_append, enqueuedDests_cons,
          enqueuedDests_nil, List.mem_append, h]
    · rcases nestedFileDests_covered_processChildren F es src dst
        (if dst ∈ fs then fs else dst :: fs) d hd with h | h
      · exact Or.inl (by simp only [processDirectory_some]; exact h)
      · refine Or.inr ?_
        simp [processDirectory_some, enqueuedDests_append, enqueuedDests_cons,
          enqueuedDests_nil, List.mem_append, h]

theorem no_enqueue_processChildren (F : FilterSettings) :
    ∀ (entries : List Entry) (src dst : List String) (fs : List (List String)),
      (∀ d ∈ nestedFileDests F entries src dst, d ∈ fs) →
      enqueuedJobs (processChildren F entries src dst fs).1 = [] := by
  refine processChildren.induct F
    (fun src dst listing fs =>
      (∀ d ∈ keptFileDestsListing F src dst listing, d ∈ fs) →
        enqueuedJobs (processDirectory F src dst listing fs).1 = [])
    (fun entries src dst fs =>
      (∀ d ∈ nestedFileDests F entries src dst, d ∈ fs) →
        enqueuedJobs (processChildren F entries src dst fs).1 = [])
    ?_ ?_ ?_ ?_ ?_ ?_
  · intro src dst fs h
    by_cases hm : dst ∈ fs <;>
      simp [processDirectory_none, hm, enqueuedJobs]
  · intro src dst fs entries ih h
    simp only [dite_eq_ite] at ih
    have hlevel : enqueueEvents F src dst
        (if dst ∈ fs then fs else dst :: fs) entries = [] := by
      apply enqueueEvents_eq_nil
      intro d hd
      exact subset_mkdirStep fs dst
        (h d (by simp [keptFileDestsListing, List.mem_append, hd]))
    have hnested : enqueuedJobs (processChildren F entries src dst
        (if dst ∈ fs then fs else dst :: fs)).1 = [] := by
      apply ih
      intro d hd
      exact subset_mkdirStep fs dst
        (h d (by simp [keptFileDestsListing, List.mem_append, hd]))
    by_cases hm : dst ∈ fs
    · rw [if_pos hm] at hlevel hnested
      simp [processDirectory_some, hm, enqueuedJobs_append, enqueuedJobs_cons,
        enqueuedJobs_nil, hlevel, hnested]
    · rw [if_neg hm] at hlevel hnested
      simp [processDirectory_some, hm, enqueuedJobs_append, enqueuedJobs_cons,
        enqueuedJobs_nil, hlevel, hnested]
  · intro src dst fs h
    rw [processChildren_nil]
    simp [enqueuedJobs]
  · intro src dst fs name rest ih h
    rw [processChildren_file]
    exact ih (fun d hd => h d (by simpa [nestedFileDests] using hd))
  · intro src dst fs name l rest hkeep c ih1 ih2 h
    rw [processChildren_dir_kept F name l rest src dst fs hkeep]
    have hchild : enqueuedJobs (processDirectory F (src ++ [name])
        (dst ++ [name]) l fs).1 = [] := by
      apply ih1
      intro d hd
      exact h d (by simp [nestedFileDests, hkeep, List.mem_append, hd])
    have hrest : enqueuedJobs (processChildren F rest src dst c.2).1 = [] := by
      apply ih2
      intro d hd
      exact fs_subset_processDirectory F (src ++ [name]) (dst ++ [name]) l fs
        (h d (by simp [nestedFileDests, hkeep, List.mem_append, hd]))
    simp only [enqueuedJobs_append]
    rw [hchild, hrest]
    rfl
  · intro src dst fs name l rest hkeep ih h
    have hk : item_filtered F true (src ++ [name]) = false := by simpa using hkeep
    rw [processChildren_dir_skip F name l rest src dst fs hk]
    exact ih (fun d hd => h d (by simpa [nestedFileDests, hk] using hd))

theorem no_enqueue_processDirectory (F : FilterSettings) (src dst : List String)
    (listing : Option (List Entry)) (fs : List (List String))
    (h : ∀ d ∈ keptFileDestsListing F src dst listing, d ∈ fs) :
    enqueuedJobs (processDirectory F src dst listing fs).1 = [] := by
  cases listing with
  | none =>
    by_cases hm : dst ∈ fs <;>
      simp [processDirectory_none, hm, enqueuedJobs]
  | some es =>
    have hlevel : enqueueEvents F src dst
        (if dst ∈ fs then fs else dst :: fs) es = [] := by
      apply enqueueEvents_eq_nil
      intro d hd
      exact subset_mkdirStep fs dst
        (h d (by simp [keptFileDestsListing, List.mem_append, hd]))
    have hnested : enqueuedJobs (processChildren F es src dst
        (if dst ∈ fs then fs else dst :: fs)).1 = [] := by
      apply no_enqueue_processChildren
      intro d hd
      exact subset_mkdirStep fs dst
        (h d (by simp [keptFileDestsListing, List.mem_append, hd]))
    by_cases hm : dst ∈ fs
    · rw [if_pos hm] at hlevel hnested
      simp [processDirectory_some, hm, enqueuedJobs_append, enqueuedJobs_cons,
        enqueuedJobs_nil, hlevel, hnested]
    · rw [if_neg hm] at hlevel hnested
      simp [processDirectory_some, hm, enqueuedJobs_append, enqueuedJobs_cons,
        enqueuedJobs_nil, hlevel, hnested]

/-- C7: (first conjunct) in the walker's item loop a surviving file item is
enqueued exactly when no file already exists at its computed destination
path — the enqueue is `put_nowait`, hence non-blocking by construction of
the model; (second conjunct) running the walker a second time over the
same remote tree, starting from the filesystem the first run left behind
with every first-run job's destination now present (the unchanged mirror
after the downloads completed), enqueues no job at all. -/
theorem c7_enqueue_iff_and_second_run_enqueues_nothing :
    (∀ (F : FilterSettings) (src dst : List String) (fs : List (List String))
        (es : List Entry) (name : String),
        Event.enqueue (src ++ [name]) (dst ++ [name]) ∈ enqueueEvents F src dst fs es ↔
          (Entry.file name ∈ es ∧ item_filtered F false (src ++ [name]) = true ∧
            (dst ++ [name]) ∉ fs)) ∧
    (∀ (F : FilterSettings) (src dst : List String) (listing : Option (List Entry))
        (fs : List (List String)),
        enqueuedJobs (processDirectory F src dst listing
            ((processDirectory F src dst listing fs).2
              ++ enqueuedDests (processDirectory F src dst listing fs).1)).1 = []) := by
  constructor
  · intro F src dst fs es name
    exact enqueue_mem_enqueueEvents_iff F src dst fs name es
  · intro F src dst listing fs
    apply no_enqueue_processDirectory
    intro d hd
    rcases keptFileDests_covered_processDirectory F src dst listing fs d hd with h | h
    · exact List.mem_append.mpr (Or.inl h)
    · exact List.mem_append.mpr (Or.inr h)
